import Mathlib

/-!
Verification development for the snapchef RAG service
(`rag_service_pathway`).  The Python sources are shallowly embedded:
strings become `List Char`, NumPy float vectors become `List Int`
(the claims under study are structural and order-theoretic, never about
rounding), the FAISS flat inner-product index together with the pickled
metadata list becomes an explicit `IndexState`, and network traffic is
an oracle argument.  Fallible Python code returns `Except`.
-/

/-! ### Python string primitives -/

/-- The whitespace characters stripped by Python `str.strip()`
(ASCII subset, which is all that the repository ever feeds it). -/
def isPySpace (c : Char) : Bool :=
  c = ' ' || c = '\t' || c = '\n' || c = '\r' || c = '\x0b' || c = '\x0c'

/-- Python `s.strip()`: drop leading and trailing whitespace. -/
def pyStrip (s : List Char) : List Char :=
  ((s.dropWhile isPySpace).reverse.dropWhile isPySpace).reverse

/-- Python `s.rstrip("/")`. -/
def rstripSlash (s : List Char) : List Char :=
  (s.reverse.dropWhile (fun c => c = '/')).reverse

/-- First index at which `pat` occurs in the remaining list, offset by `i`
(worker for `findSub`). -/
def findSubGo (pat : List Char) : List Char → Nat → Option Nat
  | [], i => if pat = [] then some i else none
  | c :: t, i => if pat.isPrefixOf (c :: t) then some i else findSubGo pat t (i + 1)

/-- Python `s.find(pat)` restricted to its `Option` essence: index of the
first occurrence of `pat` in `s`. -/
def findSub (s pat : List Char) : Option Nat :=
  findSubGo pat s 0

/-- Python `pat in s` (substring containment). -/
def listContains (s pat : List Char) : Bool :=
  (findSub s pat).isSome

/-- Fuel-driven worker for `pyCount`; the fuel is the length of the
haystack, which bounds the number of recursion steps. -/
def pyCountGo (pat : List Char) : Nat → List Char → Nat
  | 0, _ => 0
  | _ + 1, [] => 0
  | fuel + 1, c :: t =>
    if pat.isPrefixOf (c :: t) then 1 + pyCountGo pat fuel (t.drop (pat.length - 1))
    else pyCountGo pat fuel t

/-- Python `s.count(pat)`: number of non-overlapping occurrences, scanning
left to right. -/
def pyCount (s pat : List Char) : Nat :=
  if pat = [] then s.length + 1 else pyCountGo pat s.length s

/-- Fuel-driven worker for `replaceAll`. -/
def replaceGo (pat sub : List Char) : Nat → List Char → List Char
  | 0, l => l
  | _ + 1, [] => []
  | fuel + 1, c :: t =>
    if pat.isPrefixOf (c :: t) then sub ++ replaceGo pat sub fuel (t.drop (pat.length - 1))
    else c :: replaceGo pat sub fuel t

/-- Python `s.replace(pat, sub)` for a non-empty `pat` (the repository only
replaces the literals `https://` and `http://`). -/
def replaceAll (s pat sub : List Char) : List Char :=
  if pat = [] then s else replaceGo pat sub s.length s

/-- Python `s.split()` worker: accumulate the current token (reversed). -/
def pySplitWsGo : List Char → List Char → List (List Char)
  | acc, [] => if acc.isEmpty then [] else [acc.reverse]
  | acc, c :: t =>
    if isPySpace c then
      if acc.isEmpty then pySplitWsGo [] t else acc.reverse :: pySplitWsGo [] t
    else pySplitWsGo (c :: acc) t

/-- Python `s.split()` (no argument): split on whitespace runs, dropping
empty tokens. -/
def pySplitWs (s : List Char) : List (List Char) :=
  pySplitWsGo [] s

/-- Python `s.split(sep)` for a one-character separator; always returns at
least one (possibly empty) piece, like Python. -/
def splitOnChar (sep : Char) : List Char → List (List Char)
  | [] => [[]]
  | c :: t =>
    if c = sep then [] :: splitOnChar sep t
    else
      match splitOnChar sep t with
      | [] => [[c]]
      | s :: rest => (c :: s) :: rest

/-- Python string `<=` on code points (used to model tuple sorting). -/
def pyStrLe : List Char → List Char → Bool
  | [], _ => true
  | _ :: _, [] => false
  | a :: as_, b :: bs =>
    if a.toNat < b.toNat then true
    else if b.toNat < a.toNat then false
    else pyStrLe as_ bs

/-- Python `s.lower()` (ASCII case folding, all the repository needs). -/
def pyLower (s : List Char) : List Char :=
  s.map Char.toLower

/-! ### Chunker (`ingestion_utils.chunk_text`, lines 160-173) -/

/-- Loop body of `chunk_text`: take the next window of `M` characters,
strip it, keep it when non-empty.  The fuel is the length of the remaining
text; for `M > 0` it never runs out. -/
def chunkGo (M : Nat) : Nat → List Char → List (List Char)
  | 0, _ => []
  | _ + 1, [] => []
  | fuel + 1, t@(_ :: _) =>
    let c := pyStrip (t.take M)
    if c.isEmpty then chunkGo M fuel (t.drop M) else c :: chunkGo M fuel (t.drop M)

/-- `chunk_text(text, max_chars)`: naive character-based chunking
(`if not text: return []`, then consecutive `max_chars` windows, each
stripped, empty results dropped). -/
def chunk_text (text : List Char) (M : Nat) : List (List Char) :=
  if text.isEmpty then [] else chunkGo M text.length text

/-! ### Lemmas about stripping and chunking -/

theorem pyStrip_length_le (s : List Char) : (pyStrip s).length ≤ s.length := by
  unfold pyStrip
  have h1 := (List.dropWhile_sublist (l := s) isPySpace).length_le
  have h2 := (List.dropWhile_sublist (l := (s.dropWhile isPySpace).reverse) isPySpace).length_le
  simp only [List.length_reverse] at *
  omega

theorem pyStrip_eq_nil_iff (s : List Char) :
    pyStrip s = [] ↔ ∀ c ∈ s, isPySpace c = true := by
  unfold pyStrip
  rw [List.reverse_eq_nil_iff, List.dropWhile_eq_nil_iff]
  constructor
  · intro h c hc
    rcases List.mem_append.1 ((List.takeWhile_append_dropWhile (p := isPySpace) (l := s)) ▸ hc) with h1 | h2
    · exact List.mem_takeWhile_imp h1
    · exact h c (List.mem_reverse.2 h2)
  · intro h c hc
    exact h c ((List.dropWhile_sublist isPySpace).mem (List.mem_reverse.1 hc))

theorem exists_false_of_dropWhile_ne_nil (p : Char → Bool) :
    ∀ l : List Char, l.dropWhile p ≠ [] → ∃ c ∈ l.dropWhile p, p c = false := by
  intro l
  induction l with
  | nil => simp [List.dropWhile]
  | cons a t ih =>
    intro h
    by_cases hp : p a
    · rw [List.dropWhile_cons, if_pos hp] at h ⊢
      exact ih h
    · rw [List.dropWhile_cons, if_neg hp]
      exact ⟨a, List.mem_cons_self a t, by simpa using hp⟩

theorem exists_nonspace_of_pyStrip_ne_nil {s : List Char} (h : pyStrip s ≠ []) :
    ∃ c ∈ pyStrip s, isPySpace c = false := by
  unfold pyStrip at *
  rw [ne_eq, List.reverse_eq_nil_iff] at h
  obtain ⟨c, hc, hcp⟩ := exists_false_of_dropWhile_ne_nil isPySpace _ h
  exact ⟨c, List.mem_reverse.2 hc, hcp⟩

theorem pyStrip_ne_nil_of_exists_nonspace {s : List Char}
    (h : ∃ c ∈ s, isPySpace c = false) : pyStrip s ≠ [] := by
  intro hnil
  obtain ⟨c, hc, hcs⟩ := h
  have := (pyStrip_eq_nil_iff s).1 hnil c hc
  rw [this] at hcs
  exact Bool.noConfusion hcs

theorem chunkGo_spec (M : Nat) (hM : 0 < M) :
    ∀ (fuel : Nat) (t : List Char), t.length ≤ fuel →
      ∃ ws : List (List Char),
        ws.flatten = t ∧ (∀ w ∈ ws, w ≠ [] ∧ w.length ≤ M) ∧
        chunkGo M fuel t = (ws.map pyStrip).filter (fun c => !c.isEmpty) := by
  intro fuel
  induction fuel with
  | zero =>
    intro t ht
    have : t = [] := List.eq_nil_of_length_eq_zero (Nat.le_zero.1 ht)
    subst this
    exact ⟨[], by simp [chunkGo]⟩
  | succ fuel ih =>
    intro t ht
    match t with
    | [] => exact ⟨[], by simp [chunkGo]⟩
    | a :: t' =>
      have hrest : ((a :: t').drop M).length ≤ fuel := by
        simp only [List.length_drop, List.length_cons] at *
        omega
      obtain ⟨ws', hjoin, hws', heq⟩ := ih ((a :: t').drop M) hrest
      refine ⟨(a :: t').take M :: ws', ?_, ?_, ?_⟩
      · simp [hjoin]
      · intro w hw
        rcases List.mem_cons.1 hw with h | h
        · subst h
          constructor
          · match M, hM with
            | M + 1, _ => simp
          · simp only [List.length_take, List.length_cons]
            omega
        · exact hws' w h
      · show chunkGo M (fuel + 1) (a :: t') = _
        rw [chunkGo]
        simp only [List.map_cons, List.filter_cons]
        by_cases hc : (pyStrip ((a :: t').take M)).isEmpty
        · simp only [hc, if_pos, Bool.not_true, if_neg, heq]
          simp
        · simp only [hc, Bool.not_false, heq]
          simp

theorem chunk_text_ne_nil {T : List Char} {M : Nat} (hM : 0 < M)
    (h : ∃ c ∈ T, isPySpace c = false) : chunk_text T M ≠ [] := by
  obtain ⟨c, hcT, hcs⟩ := h
  have hT : ¬T.isEmpty := by
    cases T with
    | nil => cases hcT
    | cons a t => simp
  unfold chunk_text
  rw [if_neg hT]
  obtain ⟨ws, hjoin, _, heq⟩ := chunkGo_spec M hM T.length T (Nat.le_refl _)
  rw [heq]
  have hcw : ∃ w ∈ ws, c ∈ w := by
    rw [← List.mem_flatten, hjoin]
    exact hcT
  obtain ⟨w, hwws, hcw⟩ := hcw
  have hstrip : pyStrip w ≠ [] :=
    pyStrip_ne_nil_of_exists_nonspace ⟨c, hcw, hcs⟩
  have hmem : pyStrip w ∈ (ws.map pyStrip).filter (fun c => !c.isEmpty) := by
    rw [List.mem_filter]
    refine ⟨List.mem_map_of_mem pyStrip hwws, ?_⟩
    simpa [List.isEmpty_iff] using hstrip
  exact List.ne_nil_of_mem hmem

/-- C2: for every text `T` and chunk size `M > 0`, `chunk_text` cuts `T`
into consecutive windows `ws` of at most `M` characters whose
concatenation is exactly `T`; the returned chunks are precisely the
windows stripped of boundary whitespace with empty results dropped, so
every returned chunk is non-empty and of length at most `M`, and the
chunks reconstruct `T` up to whitespace at window boundaries. -/
theorem C2_chunk_reconstruction (T : List Char) (M : Nat) (hM : 0 < M) :
    ∃ ws : List (List Char),
      ws.flatten = T ∧
      (∀ w ∈ ws, w ≠ [] ∧ w.length ≤ M) ∧
      chunk_text T M = (ws.map pyStrip).filter (fun c => !c.isEmpty) ∧
      ∀ c ∈ chunk_text T M, c ≠ [] ∧ c.length ≤ M := by
  by_cases hT : T.isEmpty
  · have : T = [] := by simpa [List.isEmpty_iff] using hT
    subst this
    refine ⟨[], by simp, by simp, ?_, ?_⟩
    · simp [chunk_text]
    · simp [chunk_text]
  · obtain ⟨ws, hjoin, hws, heq⟩ := chunkGo_spec M hM T.length T (Nat.le_refl _)
    have hchunk : chunk_text T M = (ws.map pyStrip).filter (fun c => !c.isEmpty) := by
      unfold chunk_text
      rw [if_neg hT]
      exact heq
    refine ⟨ws, hjoin, hws, hchunk, ?_⟩
    intro c hc
    rw [hchunk] at hc
    rw [List.mem_filter] at hc
    obtain ⟨hcm, hcne⟩ := hc
    obtain ⟨w, hwws, hwc⟩ := List.mem_map.1 hcm
    constructor
    · intro hnil
      simp [hnil] at hcne
    · rw [← hwc]
      exact Nat.le_trans (pyStrip_length_le w) (hws w hwws).2

/-- Witness for C2 at the concrete text `"ab cd"` and `M = 3`. -/
theorem C2_chunk_reconstruction_witness :
    ∃ ws : List (List Char),
      ws.flatten = ("ab cd".toList) ∧
      (∀ w ∈ ws, w ≠ [] ∧ w.length ≤ 3) ∧
      chunk_text ("ab cd".toList) 3 = (ws.map pyStrip).filter (fun c => !c.isEmpty) ∧
      ∀ c ∈ chunk_text ("ab cd".toList) 3, c ≠ [] ∧ c.length ≤ 3 :=
  C2_chunk_reconstruction ("ab cd".toList) 3 (by decide)

/-! ### VectorIndex + MetadataStore (`ingestion_utils` lines 193-282)

`IndexState` is the persisted pair of artifacts: `nvecs` is the FAISS
index `ntotal` and `meta` is the pickled metadata list.  Vectors are
`List Int`; the FAISS `IndexFlatIP.search` is modelled exactly: the `k`
returned labels are the stored positions sorted by descending inner
product (ties by insertion order), padded with the label `-1` when the
index holds fewer than `k` vectors. -/

/-- Inner product of two vectors. -/
def dotInt (a b : List Int) : Int :=
  (List.zipWith (fun x y => x * y) a b).sum

/-- One metadata record (the dict built in `ingest_url_to_index`). -/
structure MetaRec where
  title : List Char
  url : List Char
  snippet : List Char
deriving DecidableEq

/-- Persisted index plus metadata state. -/
structure IndexState where
  nvecs : Nat
  meta : List MetaRec
deriving DecidableEq

/-- `add_to_index(vectors, metadatas)` (lines 254-266): with the NumPy
guard `vectors.size == 0` (total element count), then append vectors to
the index, extend the metadata list and persist both. -/
def add_to_index (vectors : List (List Int)) (metadatas : List MetaRec)
    (st : IndexState) : IndexState :=
  if (vectors.map List.length).sum = 0 then st
  else { nvecs := st.nvecs + vectors.length, meta := st.meta ++ metadatas }

/-- A sequence of `add_to_index` calls, each completing with its persist. -/
def runAdds : List (List (List Int) × List MetaRec) → IndexState → IndexState
  | [], st => st
  | op :: ops, st => runAdds ops (add_to_index op.1 op.2 st)

/-- Inner products of the stored vectors against the query. -/
def scoresOf (xs : List (List Int)) (q : List Int) : List Int :=
  xs.map (fun v => dotInt v q)

/-- FAISS result ordering on stored positions: higher score first, ties
broken by insertion order. -/
def rankRel (s : List Int) (i j : Nat) : Prop :=
  s.getD j 0 < s.getD i 0 ∨ (s.getD i 0 = s.getD j 0 ∧ i ≤ j)

instance rankRelDecidable (s : List Int) : DecidableRel (rankRel s) := fun i j =>
  inferInstanceAs (Decidable (s.getD j 0 < s.getD i 0 ∨ (s.getD i 0 = s.getD j 0 ∧ i ≤ j)))

instance rankRelTotal (s : List Int) : IsTotal Nat (rankRel s) :=
  ⟨by intro a b; unfold rankRel; omega⟩

instance rankRelTrans (s : List Int) : IsTrans Nat (rankRel s) :=
  ⟨by intro a b c; unfold rankRel; omega⟩

/-- The genuine stored positions returned by `index.search`, best first. -/
def faissTopPositions (xs : List (List Int)) (q : List Int) (k : Nat) : List Nat :=
  (List.insertionSort (rankRel (scoresOf xs q)) (List.range xs.length)).take k

/-- The raw label row `I[0]` returned by `index.search`: top positions
followed by `-1` padding up to length `k`. -/
def faissSearchLabels (xs : List (List Int)) (q : List Int) (k : Nat) : List Int :=
  (faissTopPositions xs q k).map Int.ofNat ++
    List.replicate (k - xs.length) (-1)

/-- Python list indexing `l[i]`: negative indices count from the end;
out-of-range raises `IndexError`. -/
def pyGetElem {α : Type} (l : List α) (i : Int) : Except String α :=
  let j : Int := if i < 0 then i + l.length else i
  if h : 0 ≤ j ∧ j.toNat < l.length then Except.ok (l.get ⟨j.toNat, h.2⟩)
  else Except.error "IndexError"

/-- The result loop of `query_index` (lines 278-281): for each label,
append `meta[i_pos]` when `i_pos < len(meta)`, else skip silently. -/
def gatherResults {α : Type} (meta : List α) : List Int → Except String (List α)
  | [] => Except.ok []
  | i :: rest =>
    if i < (meta.length : Int) then
      match pyGetElem meta i with
      | Except.ok m =>
        match gatherResults meta rest with
        | Except.ok ms => Except.ok (m :: ms)
        | Except.error e => Except.error e
      | Except.error e => Except.error e
    else gatherResults meta rest

/-- `query_index(query_vec, top_k)` (lines 269-282): empty index short
circuit, then the FAISS search followed by the guarded metadata lookup. -/
def query_index {α : Type} (xs : List (List Int)) (meta : List α) (q : List Int)
    (k : Nat) : Except String (List α) :=
  if xs.length = 0 then Except.ok []
  else gatherResults meta (faissSearchLabels xs q k)

/-! ### Lemmas about the search model -/

theorem pyGetElem_ofNat {α : Type} (meta : List α) (p : Nat) (hp : p < meta.length) :
    pyGetElem meta (Int.ofNat p) = Except.ok (meta.get ⟨p, hp⟩) := by
  unfold pyGetElem
  simp only [Int.ofNat_eq_natCast]
  have h0 : ¬((p : Int) < 0) := by omega
  simp only [if_neg h0]
  rw [dif_pos ⟨by omega, by simpa using hp⟩]
  simp

theorem gatherResults_map_ofNat {α : Type} (meta : List α) (ps : List Nat)
    (rest : List Int) (res : List α)
    (hrest : gatherResults meta rest = Except.ok res) :
    gatherResults meta (ps.map Int.ofNat ++ rest) =
      Except.ok (ps.filterMap (fun i => meta.get? i) ++ res) := by
  induction ps with
  | nil => simpa using hrest
  | cons p ps ih =>
    simp only [List.map_cons, List.cons_append, List.filterMap_cons]
    rw [gatherResults]
    simp only [Int.ofNat_eq_natCast]
    by_cases hp : p < meta.length
    · rw [if_pos (by omega)]
      have hg : pyGetElem meta ((p : Nat) : Int) = Except.ok (meta.get ⟨p, hp⟩) := by
        have := pyGetElem_ofNat meta p hp
        simpa [Int.ofNat_eq_natCast] using this
      rw [hg, ih, List.get?_eq_get hp]
      simp
    · rw [if_neg (by omega), List.get?_eq_none.2 (by omega), ih]

theorem gatherResults_replicate_neg_one {α : Type} (meta : List α) (h : meta ≠ [])
    (m : Nat) :
    gatherResults meta (List.replicate m (-1)) =
      Except.ok (List.replicate m (meta.getLast h)) := by
  have hlen : 0 < meta.length := List.length_pos.2 h
  induction m with
  | zero => simp [gatherResults]
  | succ m ih =>
    rw [List.replicate_succ, List.replicate_succ]
    show gatherResults meta (-1 :: List.replicate m (-1)) = _
    rw [gatherResults]
    rw [if_pos (by omega)]
    have hget : pyGetElem meta (-1) = Except.ok (meta.getLast h) := by
      unfold pyGetElem
      have hneg : (-1 : Int) < 0 := by omega
      simp only [if_pos hneg]
      rw [dif_pos ⟨by omega, by omega⟩]
      congr 1
      rw [List.getLast_eq_getElem]
      simp only [List.get_eq_getElem]
      congr 1
      omega
    rw [hget, ih]

theorem length_filterMap_get_all {α : Type} (meta : List α) :
    ∀ ps : List Nat, (∀ p ∈ ps, p < meta.length) →
      (ps.filterMap (fun i => meta.get? i)).length = ps.length := by
  intro ps
  induction ps with
  | nil => simp
  | cons p ps ih =>
    intro h
    have hp : p < meta.length := h p (List.mem_cons_self p ps)
    rw [List.filterMap_cons, List.get?_eq_get hp]
    simp only [List.length_cons]
    rw [ih (fun x hx => h x (List.mem_cons_of_mem p hx))]

theorem faissTopPositions_mem {xs : List (List Int)} {q : List Int} {k : Nat}
    {p : Nat} (h : p ∈ faissTopPositions xs q k) : p < xs.length := by
  unfold faissTopPositions at h
  have := List.take_subset k _ h
  rw [List.mem_insertionSort] at this
  exact List.mem_range.1 this

theorem faissTopPositions_length (xs : List (List Int)) (q : List Int) (k : Nat) :
    (faissTopPositions xs q k).length = min k xs.length := by
  unfold faissTopPositions
  rw [List.length_take, List.length_insertionSort, List.length_range]

theorem faissTopPositions_pairwise (xs : List (List Int)) (q : List Int) (k : Nat) :
    (faissTopPositions xs q k).Pairwise (rankRel (scoresOf xs q)) := by
  unfold faissTopPositions
  exact (List.sorted_insertionSort _ _).sublist (List.take_sublist _ _)

theorem add_to_index_alignment {vectors : List (List Int)} {metadatas : List MetaRec}
    {st : IndexState} (hst : st.meta.length = st.nvecs)
    (hlen : vectors.length = metadatas.length) :
    (add_to_index vectors metadatas st).meta.length =
      (add_to_index vectors metadatas st).nvecs := by
  unfold add_to_index
  by_cases hz : (vectors.map List.length).sum = 0
  · rw [if_pos hz]
    exact hst
  · rw [if_neg hz]
    simp only [List.length_append]
    omega

theorem runAdds_alignment :
    ∀ (ops : List (List (List Int) × List MetaRec)) (st : IndexState),
      st.meta.length = st.nvecs →
      (∀ op ∈ ops, op.1.length = op.2.length) →
      (runAdds ops st).meta.length = (runAdds ops st).nvecs := by
  intro ops
  induction ops with
  | nil =>
    intro st hst _
    exact hst
  | cons op ops ih =>
    intro st hst hops
    show (runAdds ops (add_to_index op.1 op.2 st)).meta.length = _
    exact ih _ (add_to_index_alignment hst (hops op (List.mem_cons_self op ops)))
      (fun x hx => hops x (List.mem_cons_of_mem op hx))

/-- C1: starting from an aligned persisted state, for every sequence of
`add_to_index` operations, each pairing as many metadata records as
vectors and each completing with its persist, the metadata list length
equals the vector count of the index immediately after each persist,
that is, after every prefix of the sequence. -/
theorem C1_meta_index_alignment (ops : List (List (List Int) × List MetaRec))
    (st0 : IndexState) (h0 : st0.meta.length = st0.nvecs)
    (hops : ∀ op ∈ ops, op.1.length = op.2.length) :
    ∀ pre suf, ops = pre ++ suf →
      (runAdds pre st0).meta.length = (runAdds pre st0).nvecs := by
  intro pre suf heq
  exact runAdds_alignment pre st0 h0
    (fun op hop => hops op (heq ▸ List.mem_append_left suf hop))

/-- Witness for C1: two vectors with two records added to the empty
store, checked after the (single-element) prefix. -/
theorem C1_meta_index_alignment_witness :
    (runAdds [([[1], [2]], [⟨[], [], []⟩, ⟨[], [], []⟩])] ⟨0, []⟩).meta.length =
      (runAdds [([[1], [2]], [⟨[], [], []⟩, ⟨[], [], []⟩])] ⟨0, []⟩).nvecs :=
  C1_meta_index_alignment [([[1], [2]], [⟨[], [], []⟩, ⟨[], [], []⟩])] ⟨0, []⟩
    (by decide) (by decide) [([[1], [2]], [⟨[], [], []⟩, ⟨[], [], []⟩])] [] rfl

/-- C8: `query_index` on an empty index (zero stored vectors) returns the
empty list through the `ntotal == 0` short circuit, and never an error. -/
theorem C8_empty_index_search {α : Type} (meta : List α) (q : List Int) (k : Nat) :
    query_index [] meta q k = Except.ok [] := by
  simp [query_index]

/-- Counterexample to C3 as stated: quantified over every `k`, the claim
fails when `k` exceeds the number of stored vectors.  With two stored
vectors of inner products 5 and 1 against the query and `k = 3`, the
FAISS padding label `-1` passes the bound check and re-appends the last
metadata record, so the returned records correspond in order to the
stored vectors `[5]`, `[1]`, `[5]`: the adjacent pair (second, third)
has inner products 1 then 5 against the query, which violates the
claimed descending order. -/
theorem C3_counterexample :
    query_index [[1], [5]] ([10, 50] : List Nat) [1] 3 = Except.ok [50, 10, 50] ∧
    ¬ dotInt [5] [1] ≤ dotInt [1] [1] := by
  constructor
  · rfl
  · decide

/-- C3 (amended): for every query vector and every `k` not exceeding the
number of stored vectors, `query_index` on a non-empty index returns,
without error, at most `k` metadata records, namely the records at the
top-`k` stored positions in descending inner-product order, where any
returned position at or beyond `len(metadata)` is silently skipped
(`filterMap` with `get?`) rather than raising. -/
theorem C3_search_ordered_bounded {α : Type} (xs : List (List Int)) (meta : List α)
    (q : List Int) (k : Nat) (hxs : xs ≠ []) (hk : k ≤ xs.length) :
    query_index xs meta q k =
      Except.ok ((faissTopPositions xs q k).filterMap (fun i => meta.get? i)) ∧
    ((faissTopPositions xs q k).filterMap (fun i => meta.get? i)).length ≤ k ∧
    (faissTopPositions xs q k).Pairwise
      (fun i j => (scoresOf xs q).getD j 0 ≤ (scoresOf xs q).getD i 0) := by
  refine ⟨?_, ?_, ?_⟩
  · unfold query_index
    rw [if_neg (by simpa [List.length_eq_zero] using hxs)]
    unfold faissSearchLabels
    rw [Nat.sub_eq_zero_of_le hk]
    rw [List.replicate_zero]
    have := gatherResults_map_ofNat meta (faissTopPositions xs q k) [] [] rfl
    simpa using this
  · exact Nat.le_trans (List.length_filterMap_le _ _)
      (by rw [faissTopPositions_length]; omega)
  · exact (faissTopPositions_pairwise xs q k).imp
      (fun hr => by unfold rankRel at hr; omega)

/-- Witness for C3 (amended): three stored vectors, a two-record metadata
list (shorter than the index, exercising the silent skip), `k = 3`. -/
theorem C3_search_ordered_bounded_witness :
    query_index [[2], [1], [3]] ([7, 8] : List Nat) [1] 3 = Except.ok [7, 8] := by
  have h := C3_search_ordered_bounded [[2], [1], [3]] ([7, 8] : List Nat) [1] 3
    (by decide) (by decide)
  rw [h.1]
  rfl

/-- C10: on a non-empty aligned index of `n` vectors with `top_k > n`,
the FAISS padding label `-1` passes the `i_pos < len(meta)` bound check
and Python negative indexing selects the last element, so the result is
the `n` genuine matches followed by one copy of the last metadata record
per padding slot - and no error is raised. -/
theorem C10_search_padding_duplicates_last {α : Type} (xs : List (List Int))
    (meta : List α) (q : List Int) (k : Nat) (hxs : xs ≠ [])
    (halign : meta.length = xs.length) (hk : xs.length < k) :
    ∃ last, meta.getLast? = some last ∧
      query_index xs meta q k =
        Except.ok ((faissTopPositions xs q k).filterMap (fun i => meta.get? i) ++
          List.replicate (k - xs.length) last) ∧
      ((faissTopPositions xs q k).filterMap (fun i => meta.get? i)).length =
        xs.length := by
  have hm : meta ≠ [] := by
    intro hnil
    rw [hnil] at halign
    exact hxs (List.length_eq_zero.1 halign.symm)
  refine ⟨meta.getLast hm, List.getLast?_eq_getLast meta hm, ?_, ?_⟩
  · unfold query_index
    rw [if_neg (by simpa [List.length_eq_zero] using hxs)]
    unfold faissSearchLabels
    exact gatherResults_map_ofNat meta (faissTopPositions xs q k) _ _
      (gatherResults_replicate_neg_one meta hm (k - xs.length))
  · rw [length_filterMap_get_all meta _
      (fun p hp => halign ▸ faissTopPositions_mem hp)]
    rw [faissTopPositions_length]
    omega

/-- Witness for C10: two aligned vectors and records, `top_k = 4`; the
last record is returned once per padding slot. -/
theorem C10_search_padding_duplicates_last_witness :
    query_index [[4], [9]] ([3, 6] : List Nat) [1] 4 = Except.ok [6, 3, 6, 6] := by
  obtain ⟨last, h1, h2, h3⟩ := C10_search_padding_duplicates_last [[4], [9]]
    ([3, 6] : List Nat) [1] 4 (by decide) (by decide) (by decide)
  have hl : last = 6 := by
    have hv : ([3, 6] : List Nat).getLast? = some 6 := by decide
    rw [hv] at h1
    exact (Option.some.inj h1).symm
  rw [hl] at h2
  rw [h2]
  rfl

/-! ### CandidateSelector (`realtime_retriever.select_candidates`,
lines 173-199) -/

/-- `q_tokens = [t for t in query.lower().split() if t]`. -/
def selectTokens (query : List Char) : List (List Char) :=
  (pySplitWs (pyLower query)).filter (fun t => !t.isEmpty)

/-- `ul.rstrip("/").split("/")[-1]`. -/
def lastSegment (s : List Char) : List Char :=
  (splitOnChar '/' (rstripSlash s)).getLastD []

/-- The loop body of `select_candidates` computing one URL score:
`+3` when `recipe` occurs in the lowered URL, `+ 2 * ul.count(t)` per
token, `+4` per token contained in the final path segment. -/
def url_score (q_tokens : List (List Char)) (u : List Char) : Nat :=
  let ul := pyLower u
  let s0 := if listContains ul ("recipe".toList) then 3 else 0
  let s1 := q_tokens.foldl (fun acc t => acc + pyCount ul t * 2) s0
  q_tokens.foldl (fun acc t => if listContains (lastSegment ul) t then acc + 4 else acc) s1

/-- Python tuple ordering for `scored.sort(reverse=True)` on
`(score, url)` pairs: higher score first, ties by descending URL. -/
def scoredRel (a b : Nat × List Char) : Prop :=
  b.1 < a.1 ∨ (a.1 = b.1 ∧ pyStrLe b.2 a.2 = true)

instance scoredRelDecidable : DecidableRel scoredRel := fun a b =>
  inferInstanceAs (Decidable (b.1 < a.1 ∨ (a.1 = b.1 ∧ pyStrLe b.2 a.2 = true)))

/-- `select_candidates(query, sitemap_urls, top_n)`: score every URL,
keep positive scores, sort descending, truncate; fall back to the first
`top_n` URLs when nothing scored. -/
def select_candidates (query : List Char) (urls : List (List Char)) (top_n : Nat) :
    List (List Char) :=
  let q_tokens := selectTokens query
  let scored := urls.filterMap (fun u =>
    let score := url_score q_tokens u
    if 0 < score then some (score, u) else none)
  if !scored.isEmpty then
    ((List.insertionSort scoredRel scored).take top_n).map (fun p => p.2)
  else urls.take top_n

/-! ### Order lemmas for the tuple sort -/

theorem pyStrLe_total : ∀ a b : List Char, pyStrLe a b = true ∨ pyStrLe b a = true := by
  intro a
  induction a with
  | nil => intro b; left; rfl
  | cons x xs ih =>
    intro b
    cases b with
    | nil => right; rfl
    | cons y ys =>
      simp only [pyStrLe]
      rcases Nat.lt_trichotomy x.toNat y.toNat with h | h | h
      · left
        simp [h]
      · have hn1 : ¬ x.toNat < y.toNat := by omega
        have hn2 : ¬ y.toNat < x.toNat := by omega
        simp [hn1, hn2]
        exact ih ys
      · right
        simp [h]

theorem pyStrLe_trans : ∀ a b c : List Char,
    pyStrLe a b = true → pyStrLe b c = true → pyStrLe a c = true := by
  intro a
  induction a with
  | nil => intro b c _ _; rfl
  | cons x xs ih =>
    intro b c hab hbc
    cases b with
    | nil => simp [pyStrLe] at hab
    | cons y ys =>
      cases c with
      | nil => simp [pyStrLe] at hbc
      | cons z zs =>
        simp only [pyStrLe] at hab hbc ⊢
        rcases Nat.lt_trichotomy x.toNat y.toNat with h1 | h1 | h1
        · rcases Nat.lt_trichotomy y.toNat z.toNat with h2 | h2 | h2
          · simp [show x.toNat < z.toNat by omega]
          · simp [show x.toNat < z.toNat by omega]
          · have hn1 : ¬ y.toNat < z.toNat := by omega
            simp [hn1, h2] at hbc
        · rcases Nat.lt_trichotomy y.toNat z.toNat with h2 | h2 | h2
          · simp [show x.toNat < z.toNat by omega]
          · have hn1 : ¬ x.toNat < y.toNat := by omega
            have hn2 : ¬ y.toNat < x.toNat := by omega
            have hn3 : ¬ y.toNat < z.toNat := by omega
            have hn4 : ¬ z.toNat < y.toNat := by omega
            have hn5 : ¬ x.toNat < z.toNat := by omega
            have hn6 : ¬ z.toNat < x.toNat := by omega
            simp only [hn1, hn2, if_neg, if_false] at hab
            simp only [hn3, hn4, if_neg, if_false] at hbc
            simp only [hn5, hn6, if_neg, if_false]
            exact ih ys zs hab hbc
          · have hn1 : ¬ y.toNat < z.toNat := by omega
            simp [hn1, h2] at hbc
        · have hn1 : ¬ x.toNat < y.toNat := by omega
          simp [hn1, h1] at hab

instance scoredRelTotal : IsTotal (Nat × List Char) scoredRel := by
  constructor
  intro a b
  unfold scoredRel
  rcases Nat.lt_trichotomy a.1 b.1 with h | h | h
  · right; left; exact h
  · rcases pyStrLe_total b.2 a.2 with hs | hs
    · left; right; exact ⟨h, hs⟩
    · right; right; exact ⟨h.symm, hs⟩
  · left; left; exact h

instance scoredRelTrans : IsTrans (Nat × List Char) scoredRel := by
  constructor
  intro a b c hab hbc
  unfold scoredRel at *
  rcases hab with h1 | ⟨h1, hs1⟩
  · rcases hbc with h2 | ⟨h2, _⟩
    · left; omega
    · left; omega
  · rcases hbc with h2 | ⟨h2, hs2⟩
    · left; omega
    · right
      exact ⟨by omega, pyStrLe_trans c.2 b.2 a.2 hs2 hs1⟩

/-- C4: `select_candidates` never returns an empty sequence when the URL
list is non-empty and `top_n ≥ 1`; moreover when every URL scores zero,
it falls back to the first `top_n` URLs unscored. -/
theorem C4_select_candidates_fallback (query : List Char) (urls : List (List Char))
    (topn : Nat) (hu : urls ≠ []) (ht : 1 ≤ topn) :
    select_candidates query urls topn ≠ [] ∧
    ((∀ u ∈ urls, url_score (selectTokens query) u = 0) →
      select_candidates query urls topn = urls.take topn) := by
  constructor
  · simp only [select_candidates]
    by_cases hs : (urls.filterMap (fun u =>
        if 0 < url_score (selectTokens query) u then
          some (url_score (selectTokens query) u, u) else none)).isEmpty
    · rw [hs]
      simp only [Bool.not_true, Bool.false_eq_true, if_false]
      rw [ne_eq, List.take_eq_nil_iff]
      push_neg
      exact ⟨by omega, hu⟩
    · rw [Bool.not_eq_true] at hs
      rw [hs]
      simp only [Bool.not_false, if_true]
      intro hnil
      have hlen := congrArg List.length hnil
      rw [List.length_map, List.length_take, List.length_insertionSort,
        List.length_nil] at hlen
      have hne : 0 < (urls.filterMap (fun u =>
          if 0 < url_score (selectTokens query) u then
            some (url_score (selectTokens query) u, u) else none)).length := by
        rw [List.length_pos]
        intro hn
        rw [hn] at hs
        simp at hs
      omega
  · intro hall
    simp only [select_candidates]
    have hnil : urls.filterMap (fun u =>
        if 0 < url_score (selectTokens query) u then
          some (url_score (selectTokens query) u, u) else none) = [] := by
      rw [List.filterMap_eq_nil_iff]
      intro u hu2
      simp only [hall u hu2]
      simp
    rw [hnil]
    rfl

/-- Witness for C4 at a single unscorable URL and `top_n = 1`. -/
theorem C4_select_candidates_fallback_witness :
    select_candidates ("x".toList) [("a".toList)] 1 ≠ [] :=
  (C4_select_candidates_fallback ("x".toList) [("a".toList)] 1 (by decide) (by decide)).1

/-- The `select_candidates` scoring rule exactly as the claim words it,
reading "+4 per occurrence of each token in the final path segment" as
an occurrence count (parallel to the "+2 per occurrence" clause). -/
def spec_score_per_occurrence (query u : List Char) : Nat :=
  let toks := pySplitWs (pyLower query)
  let ul := pyLower u
  (if listContains ul ("recipe".toList) then 3 else 0)
    + 2 * (toks.map (fun t => pyCount ul t)).sum
    + 4 * (toks.map (fun t => pyCount (lastSegment ul) t)).sum

/-- The scoring rule written from the amended claim: +3 for the keyword
anywhere, +2 per token occurrence anywhere, and +4 once per token that
occurs in the final path segment (membership, not an occurrence count). -/
def spec_score (query u : List Char) : Nat :=
  let toks := pySplitWs (pyLower query)
  let ul := pyLower u
  (if listContains ul ("recipe".toList) then 3 else 0)
    + 2 * (toks.map (fun t => pyCount ul t)).sum
    + 4 * toks.countP (fun t => listContains (lastSegment ul) t)

theorem pySplitWsGo_ne_nil : ∀ (s acc t : List Char), t ∈ pySplitWsGo acc s → t ≠ [] := by
  intro s
  induction s with
  | nil =>
    intro acc t ht
    unfold pySplitWsGo at ht
    by_cases h : acc.isEmpty
    · rw [if_pos h] at ht
      cases ht
    · rw [if_neg h] at ht
      have : t = acc.reverse := List.mem_singleton.1 ht
      subst this
      intro hnil
      rw [List.reverse_eq_nil_iff] at hnil
      rw [hnil] at h
      simp at h
  | cons c cs ih =>
    intro acc t ht
    unfold pySplitWsGo at ht
    by_cases hc : isPySpace c
    · rw [if_pos hc] at ht
      by_cases h : acc.isEmpty
      · rw [if_pos h] at ht
        exact ih [] t ht
      · rw [if_neg h] at ht
        rcases List.mem_cons.1 ht with h1 | h1
        · subst h1
          intro hnil
          rw [List.reverse_eq_nil_iff] at hnil
          rw [hnil] at h
          simp at h
        · exact ih [] t h1
    · rw [if_neg hc] at ht
      exact ih (c :: acc) t ht

theorem selectTokens_eq (query : List Char) :
    selectTokens query = pySplitWs (pyLower query) := by
  unfold selectTokens
  refine List.filter_eq_self.2 ?_
  intro t ht
  simpa using pySplitWsGo_ne_nil (pyLower query) [] t ht

theorem foldl_count_mul_two (ul : List Char) : ∀ (toks : List (List Char)) (s0 : Nat),
    toks.foldl (fun acc t => acc + pyCount ul t * 2) s0
      = s0 + 2 * (toks.map (fun t => pyCount ul t)).sum := by
  intro toks
  induction toks with
  | nil => intro s0; simp
  | cons t ts ih =>
    intro s0
    simp only [List.foldl_cons, List.map_cons, List.sum_cons]
    rw [ih]
    ring

theorem foldl_last_bonus (seg : List Char) : ∀ (toks : List (List Char)) (s0 : Nat),
    toks.foldl (fun acc t => if listContains seg t then acc + 4 else acc) s0
      = s0 + 4 * toks.countP (fun t => listContains seg t) := by
  intro toks
  induction toks with
  | nil => intro s0; simp
  | cons t ts ih =>
    intro s0
    simp only [List.foldl_cons, List.countP_cons]
    by_cases h : listContains seg t
    · rw [if_pos h, ih]
      simp only [h, if_pos]
      ring
    · rw [if_neg h, ih]
      simp [h]

theorem url_score_eq_spec_score (query u : List Char) :
    url_score (selectTokens query) u = spec_score query u := by
  simp only [url_score, spec_score]
  rw [selectTokens_eq, foldl_count_mul_two, foldl_last_bonus]

theorem mem_scored {query : List Char} {urls : List (List Char)} {p : Nat × List Char}
    (hp : p ∈ urls.filterMap (fun u =>
      if 0 < url_score (selectTokens query) u then
        some (url_score (selectTokens query) u, u) else none)) :
    p.2 ∈ urls ∧ p.1 = url_score (selectTokens query) p.2 ∧ 0 < p.1 := by
  obtain ⟨u, hu, heq⟩ := List.mem_filterMap.1 hp
  by_cases h : 0 < url_score (selectTokens query) u
  · rw [if_pos h] at heq
    have := Option.some.inj heq
    rw [← this]
    exact ⟨hu, rfl, h⟩
  · rw [if_neg h] at heq
    cases heq

theorem scored_length (query : List Char) (urls : List (List Char)) :
    (urls.filterMap (fun u =>
      if 0 < url_score (selectTokens query) u then
        some (url_score (selectTokens query) u, u) else none)).length
      = urls.countP (fun u => decide (0 < url_score (selectTokens query) u)) := by
  induction urls with
  | nil => rfl
  | cons u us ih =>
    rw [List.filterMap_cons, List.countP_cons]
    by_cases h : 0 < url_score (selectTokens query) u
    · rw [if_pos h]
      simp [h, ih]
    · rw [if_neg h]
      simp [h, ih]

/-- Counterexample to C5 as stated: the code adds the final-segment bonus
once per token present (`if t in last: score += 4`), not once per
occurrence.  With query `aa` and `top_n = 1`, the code scores
`s/aaaa` at 8 and `aa/aa/xaay` at 10 and returns the latter, while the
claimed per-occurrence scoring gives `s/aaaa` the strictly higher score
(12 versus 10), so the claimed rule would return `s/aaaa`. -/
theorem C5_counterexample :
    select_candidates ("aa".toList) [("s/aaaa".toList), ("aa/aa/xaay".toList)] 1
        = [("aa/aa/xaay".toList)] ∧
    spec_score_per_occurrence ("aa".toList) ("aa/aa/xaay".toList) <
      spec_score_per_occurrence ("aa".toList) ("s/aaaa".toList) := by
  constructor
  · decide
  · decide

/-- C5 (amended): `select_candidates` scores each URL with +3 when the
keyword `recipe` appears anywhere in the lowered URL, +2 per
non-overlapping occurrence of each whitespace token of the lowered query
anywhere in the URL, and +4 once per token occurring in the final path
segment; when at least one URL scores positively, it returns URLs with
positive score only, sorted by descending score, truncated to `top_n`. -/
theorem C5_selection_by_amended_score (query : List Char) (urls : List (List Char))
    (topn : Nat) (h : ∃ u ∈ urls, 0 < spec_score query u) :
    (select_candidates query urls topn).length =
      min topn (urls.countP (fun u => decide (0 < spec_score query u))) ∧
    (∀ u ∈ select_candidates query urls topn, u ∈ urls ∧ 0 < spec_score query u) ∧
    (select_candidates query urls topn).Pairwise
      (fun a b => spec_score query b ≤ spec_score query a) := by
  obtain ⟨u0, hu0, hpos0⟩ := h
  have hmem0 : (url_score (selectTokens query) u0, u0) ∈ urls.filterMap (fun u =>
      if 0 < url_score (selectTokens query) u then
        some (url_score (selectTokens query) u, u) else none) :=
    List.mem_filterMap.2 ⟨u0, hu0, by
      rw [if_pos (by rw [url_score_eq_spec_score]; exact hpos0)]⟩
  have hscored_ne : (urls.filterMap (fun u =>
      if 0 < url_score (selectTokens query) u then
        some (url_score (selectTokens query) u, u) else none)) ≠ [] :=
    List.ne_nil_of_mem hmem0
  have hie : (urls.filterMap (fun u =>
      if 0 < url_score (selectTokens query) u then
        some (url_score (selectTokens query) u, u) else none)).isEmpty = false := by
    rw [Bool.eq_false_iff]
    intro hT
    exact hscored_ne (List.isEmpty_iff.1 hT)
  have hsel : select_candidates query urls topn =
      ((List.insertionSort scoredRel (urls.filterMap (fun u =>
        if 0 < url_score (selectTokens query) u then
          some (url_score (selectTokens query) u, u) else none))).take topn).map
        (fun p => p.2) := by
    simp only [select_candidates]
    rw [hie]
    simp
  have hpw : ((List.insertionSort scoredRel (urls.filterMap (fun u =>
      if 0 < url_score (selectTokens query) u then
        some (url_score (selectTokens query) u, u) else none))).take topn).Pairwise
        scoredRel :=
    (List.sorted_insertionSort scoredRel _).sublist (List.take_sublist _ _)
  have hmem_take : ∀ p, p ∈ ((List.insertionSort scoredRel (urls.filterMap (fun u =>
      if 0 < url_score (selectTokens query) u then
        some (url_score (selectTokens query) u, u) else none))).take topn) →
      p.2 ∈ urls ∧ p.1 = url_score (selectTokens query) p.2 ∧ 0 < p.1 := by
    intro p hp
    exact mem_scored ((List.mem_insertionSort scoredRel).1 (List.take_subset _ _ hp))
  refine ⟨?_, ?_, ?_⟩
  · rw [hsel, List.length_map, List.length_take, List.length_insertionSort,
      scored_length]
    congr 1
    apply List.countP_congr
    intro u _
    rw [url_score_eq_spec_score]
  · intro u hu
    rw [hsel] at hu
    obtain ⟨p, hp, rfl⟩ := List.mem_map.1 hu
    obtain ⟨h1, h2, h3⟩ := hmem_take p hp
    refine ⟨h1, ?_⟩
    rw [← url_score_eq_spec_score, ← h2]
    exact h3
  · rw [hsel, List.pairwise_map]
    refine hpw.imp_of_mem ?_
    intro a b ha hb hr
    obtain ⟨_, ha2, _⟩ := hmem_take a ha
    obtain ⟨_, hb2, _⟩ := hmem_take b hb
    rw [← url_score_eq_spec_score, ← url_score_eq_spec_score, ← ha2, ← hb2]
    unfold scoredRel at hr
    omega

/-- Witness for C5 (amended) at query `aa` over a single matching URL. -/
theorem C5_selection_by_amended_score_witness :
    (select_candidates ("aa".toList) [("x/aa".toList)] 1).length =
      min 1 (List.countP (fun u => decide (0 < spec_score ("aa".toList) u))
        [("x/aa".toList)]) :=
  (C5_selection_by_amended_score ("aa".toList) [("x/aa".toList)] 1 (by decide)).1

/-! ### SitemapCache (`realtime_retriever` lines 35, 49-56, 102-171) -/

/-- `IMAGE_EXTS` from the module header. -/
def IMAGE_EXTS : List (List Char) :=
  [".jpg".toList, ".jpeg".toList, ".png".toList, ".webp".toList,
    ".gif".toList, ".svg".toList, ".bmp".toList]

/-- `url_looks_like_media(u)`: strip the query string, lowercase, then
test the uploads path and image extensions. -/
def url_looks_like_media (u : List Char) : Bool :=
  let u2 := pyLower (u.takeWhile (fun c => c ≠ '?'))
  if listContains u2 ("/wp-content/uploads/".toList) then true
  else if IMAGE_EXTS.any (fun ext => ext.isSuffixOf u2) then true
  else false

/-- `urlparse(u).netloc` for the URL shapes the repository handles. -/
def hostOf (u : List Char) : List Char :=
  match findSub u ("://".toList) with
  | none => []
  | some i => (u.drop (i + 3)).takeWhile (fun c => c ≠ '/' && c ≠ '?' && c ≠ '#')

/-- `urlparse(u).path` for the URL shapes the repository handles. -/
def pathOf (u : List Char) : List Char :=
  match findSub u ("://".toList) with
  | none => u.takeWhile (fun c => c ≠ '?' && c ≠ '#')
  | some i =>
    let rest := u.drop (i + 3)
    let afterHost := rest.drop
      ((rest.takeWhile (fun c => c ≠ '/' && c ≠ '?' && c ≠ '#')).length)
    afterHost.takeWhile (fun c => c ≠ '?' && c ≠ '#')

/-- `is_recipe_url(u)` (lines 102-119). -/
def is_recipe_url (u : List Char) : Bool :=
  let u_low := pyLower u
  if url_looks_like_media u_low then false
  else if listContains u_low ("recipe".toList) || listContains u_low ("/recipes/".toList)
      || listContains u_low ("recipes-".toList)
      || listContains u_low ("recipe-".toList) then true
  else
    let p := pathOf u_low
    let segments := (splitOnChar '/' p).filter (fun s => !s.isEmpty)
    if 2 ≤ segments.length && !(IMAGE_EXTS.any (fun ext => ext.isSuffixOf p)) then true
    else false

/-- Order-preserving deduplication (models `sorted(set(...))` together
with the ascending sort below: the sorted distinct elements). -/
def dedupeFirstGo : List (List Char) → List (List Char) → List (List Char)
  | _, [] => []
  | seen, v :: vs =>
    if v ∈ seen then dedupeFirstGo seen vs else v :: dedupeFirstGo (v :: seen) vs

def dedupeFirst (l : List (List Char)) : List (List Char) :=
  dedupeFirstGo [] l

/-- Ascending Python string order, for `sorted(...)`. -/
def ascStrRel (a b : List Char) : Prop :=
  pyStrLe a b = true

instance ascStrRelDecidable : DecidableRel ascStrRel := fun a b =>
  inferInstanceAs (Decidable (pyStrLe a b = true))

/-- The loc texts one fetched sitemap XML yields:
`[loc.text.strip() for loc in soup.find_all("loc") if loc.text and loc.text.strip()]`.
The network plus XML parse is the oracle `locsOf`; a fetch or parse
failure is `none` and contributes nothing (the `except` branches). -/
def parsedLocs (locsOf : List Char → Option (List (List Char)))
    (target : List Char) : List (List Char) :=
  match locsOf target with
  | none => []
  | some raw => (raw.map pyStrip).filter (fun l => !l.isEmpty)

/-- The full re-fetch path of `load_sitemap_urls` (lines 134-171): fetch
the index, fetch every child sitemap, filter to same host, recipe-like
and non-media URLs, then `sorted(set(filtered))`. -/
def refetchPipeline (locsOf : List Char → Option (List (List Char)))
    (sitemap_index_url : List Char) : List (List Char) :=
  let sitemap_list := parsedLocs locsOf sitemap_index_url
  let all_locs := (sitemap_list.map (fun s => parsedLocs locsOf s)).flatten
  let base_host := hostOf sitemap_index_url
  let filtered := all_locs.filter (fun u =>
    decide (hostOf u = base_host) && is_recipe_url u && !url_looks_like_media u)
  List.insertionSort ascStrRel (dedupeFirst filtered)

/-- The single pickled cache slot `SITEMAP_CACHE`
(`{"base": ..., "urls": ..., "fetched_at": ...}`). -/
structure SitemapCacheEntry where
  base : List Char
  urls : List (List Char)
  fetched_at : Nat
deriving DecidableEq

/-- Observable outcome of one `load_sitemap_urls` call: the returned
URLs, the cache slot afterwards, and whether the network was hit. -/
structure SitemapLoadResult where
  urls : List (List Char)
  cache : Option SitemapCacheEntry
  fetched : Bool
deriving DecidableEq

/-- `load_sitemap_urls(sitemap_index_url)` (lines 121-171): return the
cached URLs when a readable cache entry is younger than 24 hours (the
stored `base` is never compared), otherwise run the full re-fetch and
overwrite the slot wholesale with a fresh timestamp. -/
def load_sitemap_urls (locsOf : List Char → Option (List (List Char)))
    (sitemap_index_url : List Char) (cache : Option SitemapCacheEntry)
    (now : Nat) : SitemapLoadResult :=
  match cache with
  | some data =>
    if (now : Int) - (data.fetched_at : Int) < 24 * 3600 then
      { urls := data.urls, cache := some data, fetched := false }
    else
      let filtered := refetchPipeline locsOf sitemap_index_url
      { urls := filtered
        cache := some { base := sitemap_index_url, urls := filtered, fetched_at := now }
        fetched := true }
  | none =>
    let filtered := refetchPipeline locsOf sitemap_index_url
    { urls := filtered
      cache := some { base := sitemap_index_url, urls := filtered, fetched_at := now }
      fetched := true }

/-- Counterexample to C6 as stated: the cache hit never compares the
stored `base` URL with the requested sitemap, so a fresh entry cached
for a different sitemap is returned without refetching, although no
cached entry for this sitemap exists. -/
theorem C6_counterexample :
    (load_sitemap_urls (fun _ => none) ("http://mine/sitemap.xml".toList)
        (some ⟨"http://other/sitemap.xml".toList, [("http://other/r1".toList)], 1000⟩)
        2000).fetched = false ∧
    (load_sitemap_urls (fun _ => none) ("http://mine/sitemap.xml".toList)
        (some ⟨"http://other/sitemap.xml".toList, [("http://other/r1".toList)], 1000⟩)
        2000).urls = [("http://other/r1".toList)] ∧
    ("http://other/sitemap.xml".toList) ≠ ("http://mine/sitemap.xml".toList) := by
  refine ⟨rfl, rfl, by decide⟩

/-- C6 (amended): `load_sitemap_urls` returns the cached URL set without
refetching exactly when a readable cache entry exists - for whatever
sitemap, since the stored base URL is never compared - and it is less
than 24 hours old; a stale entry triggers the full re-fetch and the
slot is overwritten wholesale, timestamp included. -/
theorem C6_sitemap_cache_ttl (locsOf : List Char → Option (List (List Char)))
    (indexUrl : List Char) (cache : Option SitemapCacheEntry) (now : Nat) :
    ((load_sitemap_urls locsOf indexUrl cache now).fetched = false ↔
      ∃ e, cache = some e ∧ (now : Int) - (e.fetched_at : Int) < 24 * 3600) ∧
    (∀ e, cache = some e → (now : Int) - (e.fetched_at : Int) < 24 * 3600 →
      (load_sitemap_urls locsOf indexUrl cache now).urls = e.urls ∧
      (load_sitemap_urls locsOf indexUrl cache now).cache = some e) ∧
    (∀ e, cache = some e → ¬((now : Int) - (e.fetched_at : Int) < 24 * 3600) →
      (load_sitemap_urls locsOf indexUrl cache now).fetched = true ∧
      (load_sitemap_urls locsOf indexUrl cache now).cache =
        some ⟨indexUrl, refetchPipeline locsOf indexUrl, now⟩ ∧
      (load_sitemap_urls locsOf indexUrl cache now).urls =
        refetchPipeline locsOf indexUrl) := by
  cases cache with
  | none =>
    refine ⟨?_, ?_, ?_⟩
    · constructor
      · intro hf
        simp [load_sitemap_urls] at hf
      · rintro ⟨e, he, _⟩
        cases he
    · intro e he
      cases he
    · intro e he
      cases he
  | some e =>
    by_cases hfresh : (now : Int) - (e.fetched_at : Int) < 24 * 3600
    · have hfr86 : (now : Int) - (e.fetched_at : Int) < 86400 := by omega
      refine ⟨?_, ?_, ?_⟩
      · constructor
        · intro _
          exact ⟨e, rfl, hfresh⟩
        · intro _
          simp [load_sitemap_urls, hfr86]
      · intro e2 he2 _
        cases Option.some.inj he2
        constructor
        · simp [load_sitemap_urls, hfr86]
        · simp [load_sitemap_urls, hfr86]
      · intro e2 he2 hstale
        cases Option.some.inj he2
        exact absurd hfresh hstale
    · have hst86 : ¬((now : Int) - (e.fetched_at : Int) < 86400) := by omega
      refine ⟨?_, ?_, ?_⟩
      · constructor
        · intro hf
          simp [load_sitemap_urls, hst86] at hf
        · rintro ⟨e2, he2, hfr⟩
          cases Option.some.inj he2
          exact absurd hfr hfresh
      · intro e2 he2 hfr
        cases Option.some.inj he2
        exact absurd hfr hfresh
      · intro e2 he2 _
        cases Option.some.inj he2
        refine ⟨?_, ?_, ?_⟩
        · simp [load_sitemap_urls, hst86]
        · simp [load_sitemap_urls, hst86]
        · simp [load_sitemap_urls, hst86]

/-- Witness for C6 (amended): a stale entry is refetched (against an
all-failing network the pipeline yields the empty URL set) and the slot
is overwritten with the new timestamp. -/
theorem C6_sitemap_cache_ttl_witness :
    (load_sitemap_urls (fun _ => none) ("http://m/s.xml".toList)
        (some ⟨"http://m/s.xml".toList, [("u".toList)], 0⟩) 100000).fetched = true ∧
    (load_sitemap_urls (fun _ => none) ("http://m/s.xml".toList)
        (some ⟨"http://m/s.xml".toList, [("u".toList)], 0⟩) 100000).cache =
      some ⟨"http://m/s.xml".toList, [], 100000⟩ := by
  have h := (C6_sitemap_cache_ttl (fun _ => none) ("http://m/s.xml".toList)
      (some ⟨"http://m/s.xml".toList, [("u".toList)], 0⟩) 100000).2.2
      ⟨"http://m/s.xml".toList, [("u".toList)], 0⟩ rfl (by decide)
  refine ⟨h.1, ?_⟩
  rw [h.2.1]
  rfl

/-! ### ContentFetcher (`ingestion_utils.fetch_text_from_url`,
lines 54-154) and ingestion (`ingest_url_to_index`, lines 288-322)

The network is an oracle: `net variant attempt` is the outcome of one
primary GET plus readability extraction (`FetchOutcome.page title raw`
carries the extracted text before the final `.strip()`, which is code),
and `pnet proxy_url attempt` the outcome of one proxy GET. -/

/-- Outcome of one HTTP attempt: a raised request or parse exception, or
a page whose extraction produced `raw` text (pre-strip). -/
inductive FetchOutcome where
  | fail (e : List Char)
  | page (title : List Char) (raw : List Char)
deriving DecidableEq

/-- The exceptions collected into `primary_errors` and `proxy_errors`. -/
inductive PyErr where
  | exc (msg : List Char)
  | tooShort (variant : List Char) (n : Nat)
  | proxyTooShort (n : Nat)
deriving DecidableEq

/-- The aggregated `RuntimeError` of lines 150-154: the URL plus up to 3
representative primary errors and up to 3 proxy errors. -/
structure FetchFailure where
  url : List Char
  primary : List PyErr
  proxy : List PyErr
deriving DecidableEq

/-- `u.endswith("/")`. -/
def endsWithSlash (u : List Char) : Bool :=
  u.getLast? = some '/'

/-- `u.split("://", 1)` when `"://" in u`. -/
def splitProto (u : List Char) : Option (List Char × List Char) :=
  match findSub u ("://".toList) with
  | none => none
  | some i => some (u.take i, u.drop (i + 3))

/-- The candidate URL variants (lines 90-107): the stripped URL, the
trailing slash toggled, the `www.` prefix toggled, deduplicated
preserving order. -/
def buildVariants (url : List Char) : List (List Char) :=
  let u := pyStrip url
  let c2 := if endsWithSlash u then [u.dropLast] else [u ++ ['/']]
  let c3 := match splitProto u with
    | none => []
    | some (proto, rest) =>
      if ("www.".toList).isPrefixOf rest then
        [proto ++ ("://".toList) ++ rest.drop 4]
      else
        [proto ++ ("://www.".toList) ++ rest]
  dedupeFirst (u :: c2 ++ c3)

/-- `proxy_url` (lines 128-130). -/
def proxyUrlOf (url : List Char) : List Char :=
  ("https://r.jina.ai/http://".toList) ++
    replaceAll (replaceAll url ("https://".toList) []) ("http://".toList) []

/-- One primary attempt (lines 112-124): accept when the stripped
extracted text has length at least 200, else record the shortfall or the
raised exception. -/
def primaryAttempt (o : FetchOutcome) (variant : List Char) :
    Except PyErr (List Char × List Char) :=
  match o with
  | .fail e => .error (.exc e)
  | .page title raw =>
    let text := pyStrip raw
    if 200 ≤ text.length then .ok (title, text)
    else .error (.tooShort variant text.length)

/-- The primary loop (lines 110-124): two attempts per variant, errors
accumulated in order. -/
def primaryPhase (net : List Char → Nat → FetchOutcome) :
    List (List Char) → List PyErr → Except (List PyErr) (List Char × List Char)
  | [], errs => .error errs
  | v :: vs, errs =>
    match primaryAttempt (net v 1) v with
    | .ok r => .ok r
    | .error e1 =>
      match primaryAttempt (net v 2) v with
      | .ok r => .ok r
      | .error e2 => primaryPhase net vs (errs ++ [e1, e2])

/-- One proxy attempt (lines 132-147): accept stripped text of length at
least 120. -/
def proxyAttempt (o : FetchOutcome) : Except PyErr (List Char) :=
  match o with
  | .fail e => .error (.exc e)
  | .page _ raw =>
    let t := pyStrip raw
    if 120 ≤ t.length then .ok t else .error (.proxyTooShort t.length)

/-- The proxy retry loop (lines 131-147): three attempts. -/
def proxyPhase (pnet : Nat → FetchOutcome) :
    List Nat → List PyErr → Except (List PyErr) (List Char)
  | [], errs => .error errs
  | n :: ns, errs =>
    match proxyAttempt (pnet n) with
    | .ok t => .ok t
    | .error e => proxyPhase pnet ns (errs ++ [e])

/-- `url.rstrip("/").split("/")[-1] or url` (line 138). -/
def proxyTitle (url : List Char) : List Char :=
  let seg := lastSegment url
  if seg.isEmpty then url else seg

/-- `fetch_text_from_url(url)`: primary variants first, then the proxy
fallback, finally the aggregated error with up to 3 errors of each kind. -/
def fetch_text_from_url (net pnet : List Char → Nat → FetchOutcome)
    (url : List Char) : Except FetchFailure (List Char × List Char) :=
  match primaryPhase net (buildVariants url) [] with
  | .ok r => .ok r
  | .error primary_errors =>
    match proxyPhase (pnet (proxyUrlOf url)) [1, 2, 3] [] with
    | .ok ptext => .ok (proxyTitle url, ptext)
    | .error proxy_errors =>
      .error ⟨url, primary_errors.take 3, proxy_errors.take 3⟩

/-- `range(0, len(chunks), batch_size)` slicing (worker). -/
def splitEveryGo {α : Type} (m : Nat) : Nat → List α → List (List α)
  | 0, _ => []
  | _ + 1, [] => []
  | fuel + 1, l@(_ :: _) => l.take m :: splitEveryGo m fuel (l.drop m)

/-- The batches `chunks[i : i + batch_size]` of the embedding loop. -/
def splitEvery {α : Type} (m : Nat) (l : List α) : List (List α) :=
  splitEveryGo m l.length l

/-- The status dict returned by `ingest_url_to_index`. -/
inductive IngestResult where
  | empty (url : List Char)
  | noChunks (url : List Char)
  | ingested (url : List Char) (chunks : Nat)
deriving DecidableEq

/-- `ingest_url_to_index(url, max_chunk_chars)` (lines 288-322): fetch,
chunk, embed in batches of 16 (`emb` is the per-text embedding
contract), add to the index with one metadata record per chunk, persist.
A fetch failure propagates and the state is returned unchanged. -/
def ingest_url_to_index (net pnet : List Char → Nat → FetchOutcome)
    (emb : List Char → List Int) (url : List Char) (max_chunk_chars : Nat)
    (st : IndexState) : Except FetchFailure IngestResult × IndexState :=
  match fetch_text_from_url net pnet url with
  | .error e => (.error e, st)
  | .ok (title, text) =>
    if text.isEmpty then (.ok (.empty url), st)
    else
      let chunks := chunk_text text max_chunk_chars
      if chunks.isEmpty then (.ok (.noChunks url), st)
      else
        let vectors := ((splitEvery 16 chunks).map (fun b => b.map emb)).flatten
        let metadatas := chunks.map (fun c =>
          ({ title := title, url := url, snippet := c.take 1200 } : MetaRec))
        (.ok (.ingested url chunks.length), add_to_index vectors metadatas st)

/-! ### Lemmas about the fetcher -/

theorem primaryAttempt_error (o : FetchOutcome) (v : List Char)
    (h : ∀ t raw, o = FetchOutcome.page t raw → (pyStrip raw).length < 200) :
    ∃ e, primaryAttempt o v = Except.error e := by
  cases o with
  | fail e => exact ⟨.exc e, rfl⟩
  | page t raw =>
    refine ⟨.tooShort v (pyStrip raw).length, ?_⟩
    have hlt := h t raw rfl
    simp only [primaryAttempt]
    rw [if_neg (by omega)]

theorem proxyAttempt_error (o : FetchOutcome)
    (h : ∀ t raw, o = FetchOutcome.page t raw → (pyStrip raw).length < 120) :
    ∃ e, proxyAttempt o = Except.error e := by
  cases o with
  | fail e => exact ⟨.exc e, rfl⟩
  | page t raw =>
    refine ⟨.proxyTooShort (pyStrip raw).length, ?_⟩
    have hlt := h t raw rfl
    simp only [proxyAttempt]
    rw [if_neg (by omega)]

theorem primaryPhase_error (net : List Char → Nat → FetchOutcome) :
    ∀ (vs : List (List Char)) (errs : List PyErr),
      (∀ v ∈ vs, ∀ a, (a = 1 ∨ a = 2) →
        ∀ t raw, net v a = FetchOutcome.page t raw → (pyStrip raw).length < 200) →
      ∃ tail, primaryPhase net vs errs = Except.error (errs ++ tail) := by
  intro vs
  induction vs with
  | nil =>
    intro errs _
    exact ⟨[], by simp [primaryPhase]⟩
  | cons v vs ih =>
    intro errs hbad
    obtain ⟨e1, he1⟩ := primaryAttempt_error (net v 1) v
      (hbad v (List.mem_cons_self v vs) 1 (Or.inl rfl))
    obtain ⟨e2, he2⟩ := primaryAttempt_error (net v 2) v
      (hbad v (List.mem_cons_self v vs) 2 (Or.inr rfl))
    obtain ⟨tail, htail⟩ := ih (errs ++ [e1, e2])
      (fun u hu => hbad u (List.mem_cons_of_mem v hu))
    refine ⟨[e1, e2] ++ tail, ?_⟩
    show primaryPhase net (v :: vs) errs = _
    simp only [primaryPhase, he1, he2, htail]
    rw [List.append_assoc]

theorem proxyPhase_error (pnet : Nat → FetchOutcome) :
    ∀ (ns : List Nat) (errs : List PyErr),
      (∀ n ∈ ns, ∀ t raw, pnet n = FetchOutcome.page t raw →
        (pyStrip raw).length < 120) →
      ∃ tail, proxyPhase pnet ns errs = Except.error (errs ++ tail) := by
  intro ns
  induction ns with
  | nil =>
    intro errs _
    exact ⟨[], by simp [proxyPhase]⟩
  | cons n ns ih =>
    intro errs hbad
    obtain ⟨e1, he1⟩ := proxyAttempt_error (pnet n) (hbad n (List.mem_cons_self n ns))
    obtain ⟨tail, htail⟩ := ih (errs ++ [e1])
      (fun m hm => hbad m (List.mem_cons_of_mem n hm))
    refine ⟨[e1] ++ tail, ?_⟩
    show proxyPhase pnet (n :: ns) errs = _
    simp only [proxyPhase, he1, htail]
    rw [List.append_assoc]

theorem primaryAttempt_ok {o : FetchOutcome} {v t text : List Char}
    (h : primaryAttempt o v = Except.ok (t, text)) :
    ∃ raw, text = pyStrip raw ∧ 200 ≤ text.length := by
  cases o with
  | fail e => simp [primaryAttempt] at h
  | page t0 raw =>
    simp only [primaryAttempt] at h
    by_cases hlen : 200 ≤ (pyStrip raw).length
    · rw [if_pos hlen] at h
      have h2 := (Except.ok.inj h)
      have htext : text = pyStrip raw := (Prod.mk.injEq _ _ _ _ ▸ h2).2.symm
      exact ⟨raw, htext, htext ▸ hlen⟩
    · rw [if_neg hlen] at h
      cases h

theorem proxyAttempt_ok {o : FetchOutcome} {text : List Char}
    (h : proxyAttempt o = Except.ok text) :
    ∃ raw, text = pyStrip raw ∧ 120 ≤ text.length := by
  cases o with
  | fail e => simp [proxyAttempt] at h
  | page t0 raw =>
    simp only [proxyAttempt] at h
    by_cases hlen : 120 ≤ (pyStrip raw).length
    · rw [if_pos hlen] at h
      have htext := (Except.ok.inj h).symm
      exact ⟨raw, htext, htext ▸ hlen⟩
    · rw [if_neg hlen] at h
      cases h

theorem primaryPhase_ok (net : List Char → Nat → FetchOutcome) :
    ∀ (vs : List (List Char)) (errs : List PyErr) (t text : List Char),
      primaryPhase net vs errs = Except.ok (t, text) →
      ∃ raw, text = pyStrip raw ∧ 200 ≤ text.length := by
  intro vs
  induction vs with
  | nil =>
    intro errs t text h
    simp [primaryPhase] at h
  | cons v vs ih =>
    intro errs t text h
    unfold primaryPhase at h
    cases h1 : primaryAttempt (net v 1) v with
    | ok r =>
      rw [h1] at h
      simp only at h
      exact primaryAttempt_ok (h1.trans (congrArg Except.ok (Except.ok.inj h)))
    | error e1 =>
      rw [h1] at h
      simp only at h
      cases h2 : primaryAttempt (net v 2) v with
      | ok r =>
        rw [h2] at h
        simp only at h
        exact primaryAttempt_ok (h2.trans (congrArg Except.ok (Except.ok.inj h)))
      | error e2 =>
        rw [h2] at h
        simp only at h
        exact ih _ t text h

theorem proxyPhase_ok (pnet : Nat → FetchOutcome) :
    ∀ (ns : List Nat) (errs : List PyErr) (text : List Char),
      proxyPhase pnet ns errs = Except.ok text →
      ∃ raw, text = pyStrip raw ∧ 120 ≤ text.length := by
  intro ns
  induction ns with
  | nil =>
    intro errs text h
    simp [proxyPhase] at h
  | cons n ns ih =>
    intro errs text h
    unfold proxyPhase at h
    cases h1 : proxyAttempt (pnet n) with
    | ok r =>
      rw [h1] at h
      simp only at h
      exact proxyAttempt_ok (h1.trans (congrArg Except.ok (Except.ok.inj h)))
    | error e1 =>
      rw [h1] at h
      simp only at h
      exact ih _ text h

theorem fetch_ok_shape {net pnet : List Char → Nat → FetchOutcome}
    {url t text : List Char}
    (h : fetch_text_from_url net pnet url = Except.ok (t, text)) :
    ∃ raw, text = pyStrip raw ∧ 120 ≤ text.length := by
  unfold fetch_text_from_url at h
  cases h1 : primaryPhase net (buildVariants url) [] with
  | ok r =>
    rw [h1] at h
    simp only at h
    obtain ⟨raw, hraw, hlen⟩ := primaryPhase_ok net (buildVariants url) [] t text
      (h1.trans (congrArg Except.ok (Except.ok.inj h)))
    exact ⟨raw, hraw, by omega⟩
  | error perrs =>
    rw [h1] at h
    simp only at h
    cases h2 : proxyPhase (pnet (proxyUrlOf url)) [1, 2, 3] [] with
    | ok ptext =>
      rw [h2] at h
      simp only at h
      have hpair := Except.ok.inj h
      have htext : text = ptext := (Prod.mk.injEq _ _ _ _ ▸ hpair).2.symm
      obtain ⟨raw, hraw, hlen⟩ := proxyPhase_ok (pnet (proxyUrlOf url)) [1, 2, 3] []
        ptext h2
      exact ⟨raw, htext.trans hraw, htext ▸ hlen⟩
    | error xerrs =>
      rw [h2] at h
      simp only at h
      cases h

/-- C7: when every primary attempt on every URL variant raises or yields
stripped text shorter than 200 characters, and all three proxy attempts
raise or yield stripped text shorter than 120 characters, the fetcher
raises a single aggregated error carrying the URL with at most 3
primary errors and at most 3 proxy errors; `ingest_url_to_index`
surfaces exactly that error to the caller and returns the index state
unchanged, so the vector count before equals the count after. -/
theorem C7_aggregated_fetch_error (net pnet : List Char → Nat → FetchOutcome)
    (emb : List Char → List Int) (url : List Char) (M : Nat) (st : IndexState)
    (hp : ∀ v ∈ buildVariants url, ∀ a, (a = 1 ∨ a = 2) →
      ∀ t raw, net v a = FetchOutcome.page t raw → (pyStrip raw).length < 200)
    (hx : ∀ n, (n = 1 ∨ n = 2 ∨ n = 3) →
      ∀ t raw, pnet (proxyUrlOf url) n = FetchOutcome.page t raw →
        (pyStrip raw).length < 120) :
    ∃ f : FetchFailure,
      fetch_text_from_url net pnet url = Except.error f ∧
      f.url = url ∧ f.primary.length ≤ 3 ∧ f.proxy.length ≤ 3 ∧
      ingest_url_to_index net pnet emb url M st = (Except.error f, st) ∧
      (ingest_url_to_index net pnet emb url M st).2.nvecs = st.nvecs := by
  obtain ⟨ptail, hptail⟩ := primaryPhase_error net (buildVariants url) [] hp
  obtain ⟨xtail, hxtail⟩ := proxyPhase_error (pnet (proxyUrlOf url)) [1, 2, 3] []
    (fun n hn => hx n (by simpa using hn))
  rw [List.nil_append] at hptail hxtail
  have hfetch : fetch_text_from_url net pnet url =
      Except.error ⟨url, ptail.take 3, xtail.take 3⟩ := by
    unfold fetch_text_from_url
    simp only [hptail, hxtail]
  have hing : ingest_url_to_index net pnet emb url M st =
      (Except.error ⟨url, ptail.take 3, xtail.take 3⟩, st) := by
    unfold ingest_url_to_index
    simp only [hfetch]
  refine ⟨⟨url, ptail.take 3, xtail.take 3⟩, hfetch, rfl, ?_, ?_, hing, ?_⟩
  · rw [List.length_take]
    omega
  · rw [List.length_take]
    omega
  · rw [hing]

/-- Witness for C7: an all-failing network oracle over a concrete URL;
the vector count (2) is unchanged. -/
theorem C7_aggregated_fetch_error_witness :
    (ingest_url_to_index (fun _ _ => FetchOutcome.fail ("x".toList))
      (fun _ _ => FetchOutcome.fail ("y".toList)) (fun _ => [1])
      ("http://e.com".toList) 1000 ⟨2, []⟩).2.nvecs = 2 := by
  obtain ⟨f, _, _, _, _, _, h6⟩ := C7_aggregated_fetch_error
    (fun _ _ => FetchOutcome.fail ("x".toList))
    (fun _ _ => FetchOutcome.fail ("y".toList))
    (fun _ => [1]) ("http://e.com".toList) 1000 ⟨2, []⟩
    (fun _ _ _ _ _ _ h => FetchOutcome.noConfusion h)
    (fun _ _ _ _ h => FetchOutcome.noConfusion h)
  exact h6

/-- C9: whenever `fetch_text_from_url` returns successfully, the text is
a stripped string of length at least 120 containing a non-whitespace
character; consequently `ingest_url_to_index` (with a positive chunk
size, as all callers use) can never return the `empty` or `no_chunks`
statuses - every non-raising call returns `ingested` with at least one
chunk, so those two branches are unreachable. -/
theorem C9_fetch_success_nonempty_ingest (net pnet : List Char → Nat → FetchOutcome)
    (emb : List Char → List Int) (url : List Char) (M : Nat) (st : IndexState)
    (hM : 1 ≤ M) :
    (∀ t text, fetch_text_from_url net pnet url = Except.ok (t, text) →
      120 ≤ text.length ∧ ∃ c ∈ text, isPySpace c = false) ∧
    (∀ r st2, ingest_url_to_index net pnet emb url M st = (Except.ok r, st2) →
      ∃ n, r = IngestResult.ingested url n ∧ 1 ≤ n) := by
  have hfetch : ∀ t text, fetch_text_from_url net pnet url = Except.ok (t, text) →
      120 ≤ text.length ∧ ∃ c ∈ text, isPySpace c = false := by
    intro t text h
    obtain ⟨raw, hraw, hlen⟩ := fetch_ok_shape h
    refine ⟨hlen, ?_⟩
    have hne : pyStrip raw ≠ [] := by
      intro h0
      rw [hraw, h0] at hlen
      simp at hlen
    subst hraw
    exact exists_nonspace_of_pyStrip_ne_nil hne
  refine ⟨hfetch, ?_⟩
  intro r st2 hing
  unfold ingest_url_to_index at hing
  cases hf : fetch_text_from_url net pnet url with
  | error e =>
    rw [hf] at hing
    simp at hing
  | ok p =>
    obtain ⟨title, text⟩ := p
    rw [hf] at hing
    obtain ⟨hlen, hnon⟩ := hfetch title text hf
    have hneText : text.isEmpty = false := by
      cases text with
      | nil => simp at hlen
      | cons a l => rfl
    have hch : (chunk_text text M).isEmpty = false := by
      have hne := chunk_text_ne_nil (show 0 < M by omega) hnon
      cases hc : chunk_text text M with
      | nil => exact absurd hc hne
      | cons a l => rfl
    simp only [hneText, Bool.false_eq_true, if_false, hch] at hing
    rw [Prod.mk.injEq] at hing
    obtain ⟨h1, _⟩ := hing
    refine ⟨(chunk_text text M).length, (Except.ok.inj h1).symm, ?_⟩
    have : chunk_text text M ≠ [] := chunk_text_ne_nil (show 0 < M by omega) hnon
    have := List.length_pos.2 this
    omega

set_option maxRecDepth 100000 in
/-- Witness for C9: a network oracle answering the first attempt with a
200-character page; the ingest returns the `ingested` status with one
chunk. -/
theorem C9_fetch_success_nonempty_ingest_witness :
    ∃ n, IngestResult.ingested ("http://e.com".toList) 1 =
      IngestResult.ingested ("http://e.com".toList) n ∧ 1 ≤ n := by
  have h := (C9_fetch_success_nonempty_ingest
    (fun _ _ => FetchOutcome.page ("t".toList) (List.replicate 200 'a'))
    (fun _ _ => FetchOutcome.fail []) (fun _ => [1]) ("http://e.com".toList) 1000
    ⟨0, []⟩ (by decide)).2
  exact h (IngestResult.ingested ("http://e.com".toList) 1)
    (ingest_url_to_index
      (fun _ _ => FetchOutcome.page ("t".toList) (List.replicate 200 'a'))
      (fun _ _ => FetchOutcome.fail []) (fun _ => [1]) ("http://e.com".toList) 1000
      ⟨0, []⟩).2 (by rfl)
